import Mathlib

/-!
Verification development for a static document catalog (script.js / data.js).

The page reads a fixed array of document records, groups them by category,
sorts each group newest-first, renders the result as HTML cards into a host
container, and filters the list from a debounced search box.

This file gives a shallow embedding of that pipeline:

* `FileRecord` models one entry of the `files` array (data.js).
* `dateValue` / `formatDate` model the two date helpers (script.js lines
  17-25), including the host `Date` parsing of strict `"YYYY-MM-DD"`
  date-time-string-format input (nonconforming strings are modelled as an
  invalid date, i.e. `none`, which stands for the IEEE `NaN` time value).
* `escHtml` models the four chained `String.replace` passes (lines 28-34).
* `groupByCategory` models the grouping plus the two `Array.prototype.sort`
  calls (lines 43-58).  `Array.prototype.sort` is stable (ES2019); it is
  modelled by the stable insertion sort `jsSort`, in which a new element is
  placed immediately before the maximal suffix of elements `y` for which the
  comparator result `comparator(y, x)` is positive — exactly the
  shift-while-positive loop of an engine insertion sort.  A comparator
  result of `NaN` (an invalid date) is neither positive nor negative, so it
  never causes movement, matching the engine behaviour for the
  implementation-defined inconsistent-comparator case.
* `renderCard` / `renderCategory` / `renderAll` model the HTML producers
  (lines 63-119); the host container state is passed explicitly and the
  `requestAnimationFrame` animation step is recorded as a boolean flag.
* `filterFiles` models the search filter (lines 127-136); the module-level
  `files` array the source closes over is passed explicitly.
* `debounceRenders` models the debounced input listener (lines 139-153) as
  a discrete-event semantics: one render fires per pending timer that is not
  cancelled by a later input event.
-/

/-- One entry of the `files` array (data.js): category, title, description,
file path and `"YYYY-MM-DD"` update date, all strings. -/
structure FileRecord where
  category : String
  title : String
  description : String
  file : String
  updated : String
deriving DecidableEq, Repr

/-! ### Date parsing (host `Date` behaviour used by `dateValue`/`formatDate`) -/

/-- Decide whether a character is an ASCII decimal digit. -/
def isDigitChar (c : Char) : Bool := decide ('0' ≤ c) && decide (c ≤ '9')

/-- Numeric value of an ASCII decimal digit character. -/
def digitVal (c : Char) : Nat := c.toNat - '0'.toNat

/-- Gregorian leap-year rule, as used by the host date implementation. -/
def isLeapYear (y : Nat) : Bool :=
  (y % 4 = 0 && y % 100 ≠ 0) || y % 400 = 0

/-- Number of days in month `m` (1-12) of year `y`. -/
def daysInMonth (y m : Nat) : Nat :=
  if m = 2 then (if isLeapYear y then 29 else 28)
  else if m = 4 ∨ m = 6 ∨ m = 9 ∨ m = 11 then 30
  else 31

/-- Modelled host behaviour: parse a string in the strict date-time string
format `"YYYY-MM-DD"` into `(year, month, day)`.  Out-of-range month or day
values and nonconforming strings yield `none` (an invalid date; the legacy
fallback parser for nonconforming strings is implementation-defined and is
modelled as invalid). -/
def parseISODate (s : String) : Option (Nat × Nat × Nat) :=
  match s.data with
  | [y1, y2, y3, y4, '-', m1, m2, '-', d1, d2] =>
    if ([y1, y2, y3, y4, m1, m2, d1, d2].all isDigitChar) then
      let y := ((digitVal y1 * 10 + digitVal y2) * 10 + digitVal y3) * 10 + digitVal y4
      let m := digitVal m1 * 10 + digitVal m2
      let d := digitVal d1 * 10 + digitVal d2
      if 1 ≤ m ∧ m ≤ 12 ∧ 1 ≤ d ∧ d ≤ daysInMonth y m then some (y, m, d) else none
    else none
  | _ => none

/-- Days since the Unix epoch of a civil date (standard days-from-civil
computation, as performed by the host `Date` for a UTC date).  All division
operands are nonnegative, so the rounding convention is irrelevant. -/
def daysFromCivil (y m d : Nat) : Int :=
  let yAdj : Int := if m ≤ 2 then (y : Int) - 1 else (y : Int)
  let era : Int := (yAdj + 400) / 400 - 1
  let yoe : Int := yAdj - era * 400
  let mp : Nat := if 2 < m then m - 3 else m + 9
  let doy : Int := ((153 * mp + 2) / 5 : Nat) + (d : Int) - 1
  let doe : Int := yoe * 365 + yoe / 4 - yoe / 100 + doy
  era * 146097 + doe - 719468

/-- Model of `dateValue` (script.js lines 17-19): `new Date(str).getTime()`.
A date-only string is interpreted as UTC midnight, so the time value is the
epoch day count times `86400000` ms.  `none` models the `NaN` time value of
an invalid date. -/
def dateValue (s : String) : Option Int :=
  (parseISODate s).map (fun t => daysFromCivil t.1 t.2.1 t.2.2 * 86400000)

/-- English month abbreviations used by `toLocaleDateString("en-US")` with
`month: "short"`. -/
def monthAbbrev : Nat → String
  | 1 => "Jan" | 2 => "Feb" | 3 => "Mar" | 4 => "Apr"
  | 5 => "May" | 6 => "Jun" | 7 => "Jul" | 8 => "Aug"
  | 9 => "Sep" | 10 => "Oct" | 11 => "Nov" | _ => "Dec"

/-- The decimal digit character for `n % 10`. -/
def digitChar (n : Nat) : Char :=
  match n % 10 with
  | 0 => '0' | 1 => '1' | 2 => '2' | 3 => '3' | 4 => '4'
  | 5 => '5' | 6 => '6' | 7 => '7' | 8 => '8' | _ => '9'

/-- Decimal digit list of `n` (fuel-based so it reduces in the kernel). -/
def natDigits : Nat → Nat → List Char
  | 0, _ => []
  | fuel + 1, n => if n < 10 then [digitChar n] else natDigits fuel (n / 10) ++ [digitChar (n % 10)]

/-- Unpadded decimal rendering of a natural number, as the `numeric` fields
of `toLocaleDateString` print years and days. -/
def natToString (n : Nat) : String := ⟨natDigits (n + 1) n⟩

/-- Model of `formatDate` (script.js lines 22-25):
`new Date(str + "T00:00:00").toLocaleDateString("en-US", ...)`.  Appending
`"T00:00:00"` keeps a conforming date string conforming and pins it to local
midnight, so a valid date displays its own calendar fields as e.g.
`"Feb 26, 2026"`.  An invalid date displays as `"Invalid Date"`.  (The en-US
era handling for year numbers below 1 is not modelled.) -/
def formatDate (s : String) : String :=
  match parseISODate s with
  | none => "Invalid Date"
  | some (y, m, d) => monthAbbrev m ++ " " ++ natToString d ++ ", " ++ natToString y

/-! ### HTML escaping (script.js lines 28-34) -/

/-- One global-regex `String.replace` pass: every occurrence of character `c`
is replaced by the replacement character list `rep`. -/
def replaceChar (c : Char) (rep : List Char) : List Char → List Char
  | [] => []
  | x :: xs => (if x = c then rep else [x]) ++ replaceChar c rep xs

/-- Model of `escHtml` (script.js lines 28-34): the four chained replace
passes, ampersand first. -/
def escHtml (s : String) : String :=
  ⟨replaceChar '"' "&quot;".data
    (replaceChar '>' "&gt;".data
      (replaceChar '<' "&lt;".data
        (replaceChar '&' "&amp;".data s.data)))⟩

/-- Characterisation of escaping used in the statements: the per-character
escape of one HTML special character. -/
def escChar (c : Char) : List Char :=
  if c = '&' then "&amp;".data
  else if c = '<' then "&lt;".data
  else if c = '>' then "&gt;".data
  else if c = '"' then "&quot;".data
  else [c]

/-! ### Stable sort (`Array.prototype.sort`) -/

/-- Stable insertion step of `Array.prototype.sort`: `x` is placed
immediately before the maximal suffix of elements `y` with `gt y x = true`,
where `gt y x` stands for "the comparator applied to `(y, x)` returned a
positive number".  This is the shift-while-positive insertion loop of an
engine sort; a `NaN` comparator result is not positive and causes no
movement. -/
def jsInsert (gt : α → α → Bool) (x : α) : List α → List α
  | [] => [x]
  | y :: l => if (y :: l).all (fun z => gt z x) then x :: y :: l else y :: jsInsert gt x l

/-- Stable sort modelling `Array.prototype.sort` with comparator test `gt`:
elements are inserted left to right. -/
def jsSort (gt : α → α → Bool) (l : List α) : List α :=
  l.foldl (fun acc x => jsInsert gt x acc) []

/-! ### Locale comparison (host `String.prototype.localeCompare`) -/

/-- Lower-case an ASCII letter; other characters are unchanged. -/
def asciiLower (c : Char) : Char :=
  if decide ('A' ≤ c) && decide (c ≤ 'Z') then Char.ofNat (c.toNat + 32) else c

/-- Tertiary collation weight: ASCII upper-case letters sort after their
lower-case forms. -/
def caseWeight (c : Char) : Nat :=
  if decide ('A' ≤ c) && decide (c ≤ 'Z') then 1 else 0

/-- Three-way lexicographic comparison of weight lists. -/
def listCmpN : List Nat → List Nat → Int
  | [], [] => 0
  | [], _ :: _ => -1
  | _ :: _, [] => 1
  | a :: as, b :: bs => if a < b then -1 else if b < a then 1 else listCmpN as bs

/-- Modelled host function: `String.prototype.localeCompare` under the
default locale, restricted to ASCII — primary comparison on case-folded code
points over the whole string, then a tertiary case tiebreak (lower case
first), as in the default collation. -/
def lcCompare (s t : String) : Int :=
  let p := listCmpN (s.data.map (fun c => (asciiLower c).toNat))
                    (t.data.map (fun c => (asciiLower c).toNat))
  if p = 0 then listCmpN (s.data.map caseWeight) (t.data.map caseWeight) else p

/-! ### Grouping (script.js lines 43-58) -/

/-- One step of the `fileList.forEach` loop building the `Map`: append `f`
to the bucket of its category, creating the bucket at the end (insertion
order) when the key is new. -/
def insertRecord (m : List (String × List FileRecord)) (f : FileRecord) :
    List (String × List FileRecord) :=
  if m.any (fun p => p.1 == f.category) then
    m.map (fun p => if p.1 == f.category then (p.1, p.2 ++ [f]) else p)
  else m ++ [(f.category, [f])]

/-- The insertion-ordered `Map` of `groupByCategory` before sorting,
modelled as an association list. -/
def buildGroups (l : List FileRecord) : List (String × List FileRecord) :=
  l.foldl insertRecord []

/-- The bucket stored under key `c`, or `[]` when the key is absent. -/
def bucketOf (m : List (String × List FileRecord)) (c : String) : List FileRecord :=
  (((m.find? (fun p => p.1 == c)).map Prod.snd).getD [])

/-- Comparator of the within-category sort (script.js line 53):
`dateValue(b.updated) - dateValue(a.updated)`; `none` models `NaN`. -/
def cmpUpdated (a b : FileRecord) : Option Int :=
  match dateValue b.updated, dateValue a.updated with
  | some x, some y => some (x - y)
  | _, _ => none

/-- Positivity test of `cmpUpdated`; `NaN` is not positive. -/
def gtUpdated (a b : FileRecord) : Bool :=
  match cmpUpdated a b with
  | some v => decide (0 < v)
  | none => false

/-- Positivity test of the category-key comparator (script.js line 57):
`a[0].localeCompare(b[0])`. -/
def gtCategory (p q : String × List FileRecord) : Bool :=
  decide (0 < lcCompare p.1 q.1)

/-- Model of `groupByCategory` (script.js lines 43-58): build the
insertion-ordered map, sort every bucket newest-first, then sort the entries
by category key. -/
def groupByCategory (l : List FileRecord) : List (String × List FileRecord) :=
  jsSort gtCategory ((buildGroups l).map (fun p => (p.1, jsSort gtUpdated p.2)))

/-! ### Rendering (script.js lines 63-119) -/

/-- Model of `renderCard` (script.js lines 63-80): the template literal with
its interpolations replaced by explicit concatenation. -/
def renderCard (f : FileRecord) : String :=
  "\n      <a\n        class=\"card\"\n        href=\"" ++ escHtml f.file ++
  "\"\n        target=\"_blank\"\n        rel=\"noopener noreferrer\"\n        aria-label=\"Open " ++
  escHtml f.title ++
  "\"\n      >\n        <div class=\"card-body\">\n          <p class=\"card-title\">" ++
  escHtml f.title ++
  "</p>\n          <p class=\"card-desc\">" ++ escHtml f.description ++
  "</p>\n        </div>\n        <time class=\"card-date\" datetime=\"" ++ escHtml f.updated ++
  "\">\n          " ++ formatDate f.updated ++ "\n        </time>\n      </a>"

/-- Model of `Array.prototype.join` with a separator. -/
def joinWith (sep : String) : List String → String
  | [] => ""
  | [x] => x
  | x :: y :: xs => x ++ sep ++ joinWith sep (y :: xs)

/-- Model of `renderCategory` (script.js lines 83-92). -/
def renderCategory (categoryName : String) (entries : List FileRecord) : String :=
  "\n      <section class=\"category\" aria-labelledby=\"cat-" ++ escHtml categoryName ++
  "\">\n        <h2 class=\"category-title\" id=\"cat-" ++ escHtml categoryName ++
  "\">" ++ escHtml categoryName ++
  "</h2>\n        <div class=\"card-list\">\n          " ++
  joinWith "\n" (entries.map renderCard) ++
  "\n        </div>\n      </section>"

/-- The empty-state placeholder markup (script.js line 100). -/
def emptyStateHtml : String := "<p class=\"empty-state\">No documents found.</p>"

/-- Observable outcome of one `renderAll` call: the full content assigned to
the host container (`app.innerHTML`), and whether the stagger-animation
callback was scheduled (`requestAnimationFrame`). -/
structure RenderOutcome where
  content : String
  animScheduled : Bool
deriving DecidableEq, Repr

/-- Model of `renderAll` (script.js lines 95-119).  Assigning `innerHTML`
replaces the container's entire content, so the outcome ignores the previous
content `prevContent`. -/
def renderAll (prevContent : String) (fileList : List FileRecord) : RenderOutcome :=
  let grouped := groupByCategory fileList
  if grouped.length = 0 then ⟨emptyStateHtml, false⟩
  else ⟨String.join (grouped.map (fun p => renderCategory p.1 p.2)), true⟩

/-! ### Search (script.js lines 127-153) -/

/-- Lower-case fold of `String.prototype.toLowerCase`, restricted to the
ASCII range the catalog uses. -/
def jsToLower (s : String) : String := ⟨s.data.map asciiLower⟩

/-- Decide whether `needle` matches at the head of `hay`. -/
def headMatch : List Char → List Char → Bool
  | [], _ => true
  | _ :: _, [] => false
  | n :: ns, h :: hs => n == h && headMatch ns hs

/-- Model of `String.prototype.includes`: `needle` occurs contiguously
somewhere in `hay`. -/
def isSubChars (needle : List Char) : List Char → Bool
  | [] => headMatch needle []
  | h :: hs => headMatch needle (h :: hs) || isSubChars needle hs

/-- One field test of the filter predicate (script.js lines 131-134). -/
def matchesQuery (q : String) (f : FileRecord) : Bool :=
  isSubChars q.data (jsToLower f.title).data ||
  isSubChars q.data (jsToLower f.description).data ||
  isSubChars q.data (jsToLower f.category).data

/-- Model of `filterFiles` (script.js lines 127-136).  The module-level
`files` array the source closes over is passed explicitly.  The only falsy
string is `""`, so `if (!query)` is `query = ""`. -/
def filterFiles (files : List FileRecord) (query : String) : List FileRecord :=
  if query = "" then files
  else files.filter (matchesQuery (jsToLower query))

/-- Model of `String.prototype.trim` over ASCII whitespace, as applied to
`input.value` at the filter call sites. -/
def jsTrim (s : String) : String :=
  ⟨((s.data.dropWhile (fun c => c == ' ' || c == '\t' || c == '\n' || c == '\r')).reverse.dropWhile
      (fun c => c == ' ' || c == '\t' || c == '\n' || c == '\r')).reverse⟩

/-! ### Debounced search controller (script.js lines 139-153) -/

/-- One `input` event: its arrival time in milliseconds and the value the
search box holds from that moment on. -/
structure InputEvent where
  t : Nat
  value : String
deriving DecidableEq, Repr

/-- The debounce delay of the search controller (script.js line 151). -/
def debounceMs : Nat := 150

/-- Discrete-event semantics of the debounced listener: each input event
clears the pending timer and schedules a new one `debounceMs` later.  The
timer of an event therefore fires exactly when the next event (if any) does
not arrive strictly before the deadline; the callback then reads the current
input value, which is the firing event's value.  Returns the fired renders
as `(time, value)` pairs in order. -/
def debounceRenders : List InputEvent → List (Nat × String)
  | [] => []
  | [e] => [(e.t + debounceMs, e.value)]
  | e :: e2 :: rest =>
    if e.t + debounceMs ≤ e2.t then
      (e.t + debounceMs, e.value) :: debounceRenders (e2 :: rest)
    else debounceRenders (e2 :: rest)

/-- The render a fired timer performs (script.js lines 149-150):
`renderAll(filterFiles(input.value.trim()))`. -/
def searchRender (files : List FileRecord) (prevContent : String) (value : String) :
    RenderOutcome :=
  renderAll prevContent (filterFiles files (jsTrim value))

/-! ### Sample records -/

/-- The one record of the shipped catalog (data.js lines 21-27). -/
def sampleRecord : FileRecord :=
  ⟨"Data Analysis", "Understanding core principles of data analysis",
   "Short explanation of vectorization, normalization and outlier detections, including example Python code blocks and scientific formulas. It's also good for beginners in Python.",
   "pdfs/Vectorization-Normalization-OutliersDetection.pdf", "2026-02-26"⟩

/-- Sample record of the specification's grouping scenario, category A, 2024. -/
def recX : FileRecord := ⟨"A", "X", "", "f", "2024-01-01"⟩

/-- Sample record of the specification's grouping scenario, category A, 2025. -/
def recY : FileRecord := ⟨"A", "Y", "", "f", "2025-01-01"⟩

/-- Sample record of the specification's grouping scenario, category B. -/
def recZ : FileRecord := ⟨"B", "Z", "", "f", "2024-06-01"⟩

/-- A valid 2020 record, placed before a malformed-date record. -/
def rec2020 : FileRecord := ⟨"A", "old", "", "f", "2020-01-01"⟩

/-- A record whose `updated` value does not parse as a calendar date. -/
def recBad : FileRecord := ⟨"A", "bad", "", "f", "not-a-date"⟩

/-- A valid 2025 record, placed after the malformed-date record. -/
def rec2025 : FileRecord := ⟨"A", "new", "", "f", "2025-01-01"⟩

/-! ## Lemmas about the stable sort -/

theorem jsInsert_perm (gt : α → α → Bool) (x : α) (l : List α) :
    (jsInsert gt x l).Perm (x :: l) := by
  induction l with
  | nil => simp [jsInsert]
  | cons y l ih =>
    by_cases h : ((y :: l).all (fun z => gt z x) = true)
    · simp [jsInsert, h]
    · simp only [jsInsert, if_neg h]
      exact (ih.cons y).trans (List.Perm.swap x y l)

theorem jsInsert_mem (gt : α → α → Bool) (x : α) (l : List α) (a : α) :
    a ∈ jsInsert gt x l ↔ a = x ∨ a ∈ l := by
  rw [(jsInsert_perm gt x l).mem_iff, List.mem_cons]

theorem jsSort_aux_perm (gt : α → α → Bool) (l acc : List α) :
    (l.foldl (fun acc x => jsInsert gt x acc) acc).Perm (acc ++ l) := by
  induction l generalizing acc with
  | nil => simp
  | cons x l ih =>
    simp only [List.foldl_cons]
    refine (ih (jsInsert gt x acc)).trans ?_
    refine ((jsInsert_perm gt x acc).append_right l).trans ?_
    have hmid : (acc ++ x :: l).Perm (x :: (acc ++ l)) := List.perm_middle
    simpa using hmid.symm

theorem jsSort_perm (gt : α → α → Bool) (l : List α) : (jsSort gt l).Perm l := by
  simpa [jsSort] using jsSort_aux_perm gt l []

theorem jsInsert_pairwise {gt : α → α → Bool} {S : α → Prop}
    (hA : ∀ a b, S a → S b → gt a b = true → gt b a = false)
    (hT : ∀ a b c, S a → S b → S c → gt a b = false → gt b c = false → gt a c = false)
    {x : α} {l : List α} (hx : S x) (hl : ∀ a ∈ l, S a)
    (hs : l.Pairwise (fun a b => gt a b = false)) :
    (jsInsert gt x l).Pairwise (fun a b => gt a b = false) := by
  induction l with
  | nil => simp [jsInsert]
  | cons y l ih =>
    rw [List.pairwise_cons] at hs
    by_cases h : ((y :: l).all (fun z => gt z x) = true)
    · simp only [jsInsert, if_pos h]
      rw [List.pairwise_cons]
      refine ⟨?_, List.pairwise_cons.mpr hs⟩
      intro z hz
      rw [List.all_eq_true] at h
      exact hA z x (hl z hz) hx (h z hz)
    · simp only [jsInsert, if_neg h]
      rw [List.pairwise_cons]
      constructor
      · intro w hw
        rw [jsInsert_mem] at hw
        rcases hw with hwx | hw
        · rw [hwx]
          by_cases hyx : gt y x = true
          · have hex : ∃ z ∈ l, gt z x = false := by
              by_contra hc
              push_neg at hc
              apply h
              rw [List.all_eq_true]
              intro z hz
              rcases List.mem_cons.mp hz with hzy | hzl
              · rw [hzy]; exact hyx
              · rcases Bool.eq_false_or_eq_true (gt z x) with ht | hf
                · exact ht
                · exact absurd hf (hc z hzl)
            rcases hex with ⟨z, hz, hgz⟩
            exact hT y z x (hl y (List.mem_cons_self y l)) (hl z (List.mem_cons_of_mem y hz))
              hx (hs.1 z hz) hgz
          · exact Bool.eq_false_iff.mpr hyx
        · exact hs.1 w hw
      · exact ih (fun a ha => hl a (List.mem_cons_of_mem y ha)) hs.2

theorem jsSort_aux_pairwise {gt : α → α → Bool} {S : α → Prop}
    (hA : ∀ a b, S a → S b → gt a b = true → gt b a = false)
    (hT : ∀ a b c, S a → S b → S c → gt a b = false → gt b c = false → gt a c = false)
    (l : List α) :
    ∀ (acc : List α), (∀ a ∈ l, S a) → (∀ a ∈ acc, S a) →
      acc.Pairwise (fun a b => gt a b = false) →
      (l.foldl (fun acc x => jsInsert gt x acc) acc).Pairwise (fun a b => gt a b = false) := by
  induction l with
  | nil => intro acc _ _ hs; simpa using hs
  | cons x l ih =>
    intro acc hl hacc hs
    simp only [List.foldl_cons]
    refine ih (jsInsert gt x acc) (fun a ha => hl a (List.mem_cons_of_mem x ha)) ?_ ?_
    · intro a ha
      rw [jsInsert_mem] at ha
      rcases ha with hax | ha
      · rw [hax]; exact hl x (List.mem_cons_self x l)
      · exact hacc a ha
    · exact jsInsert_pairwise hA hT (hl x (List.mem_cons_self x l)) hacc hs

theorem jsSort_pairwise {gt : α → α → Bool} (S : α → Prop)
    (hA : ∀ a b, S a → S b → gt a b = true → gt b a = false)
    (hT : ∀ a b c, S a → S b → S c → gt a b = false → gt b c = false → gt a c = false)
    (l : List α) (hl : ∀ a ∈ l, S a) :
    (jsSort gt l).Pairwise (fun a b => gt a b = false) :=
  jsSort_aux_pairwise hA hT l [] hl (by simp) (by simp)

theorem jsInsert_filter {gt : α → α → Bool} {P : α → Bool}
    (hP : ∀ a b, P a = true → P b = true → gt a b = false)
    (x : α) (l : List α) :
    (jsInsert gt x l).filter P = l.filter P ++ if P x then [x] else [] := by
  induction l with
  | nil => by_cases hx : P x = true <;> simp [jsInsert, hx]
  | cons y l ih =>
    by_cases h : ((y :: l).all (fun z => gt z x) = true)
    · by_cases hx : P x = true
      · have hfl : (y :: l).filter P = [] := by
          rw [List.filter_eq_nil_iff]
          intro z hz hPz
          rw [List.all_eq_true] at h
          have h2 := h z hz
          rw [hP z x hPz hx] at h2
          cases h2
        simp [jsInsert, h, hx, hfl]
      · simp [jsInsert, h, hx, List.filter_cons]
    · by_cases hy : P y = true <;>
        simp [jsInsert, h, hy, List.filter_cons, ih, List.append_assoc]

theorem jsSort_aux_filter {gt : α → α → Bool} {P : α → Bool}
    (hP : ∀ a b, P a = true → P b = true → gt a b = false)
    (l acc : List α) :
    (l.foldl (fun acc x => jsInsert gt x acc) acc).filter P = acc.filter P ++ l.filter P := by
  induction l generalizing acc with
  | nil => simp
  | cons x l ih =>
    simp only [List.foldl_cons]
    rw [ih (jsInsert gt x acc), jsInsert_filter hP]
    by_cases hx : P x = true <;> simp [hx, List.filter_cons, List.append_assoc]

theorem jsSort_filter {gt : α → α → Bool} {P : α → Bool}
    (hP : ∀ a b, P a = true → P b = true → gt a b = false)
    (l : List α) :
    (jsSort gt l).filter P = l.filter P := by
  simpa [jsSort] using jsSort_aux_filter hP l []

/-! ## Lemmas about the locale comparison -/

theorem listCmpN_antisym (a : List Nat) : ∀ b : List Nat, listCmpN a b = -(listCmpN b a) := by
  induction a with
  | nil => intro b; cases b <;> simp [listCmpN]
  | cons x as ih =>
    intro b
    cases b with
    | nil => simp [listCmpN]
    | cons y bs =>
      rcases Nat.lt_trichotomy x y with h | h | h
      · simp [listCmpN, h, Nat.lt_asymm h]
      · subst h
        simpa [listCmpN, Nat.lt_irrefl] using ih bs
      · simp [listCmpN, h, Nat.lt_asymm h]

theorem listCmpN_eq_zero (a : List Nat) : ∀ b : List Nat, listCmpN a b = 0 ↔ a = b := by
  induction a with
  | nil => intro b; cases b <;> simp [listCmpN]
  | cons x as ih =>
    intro b
    cases b with
    | nil => simp [listCmpN]
    | cons y bs =>
      rcases Nat.lt_trichotomy x y with h | h | h
      · rw [listCmpN, if_pos h]
        constructor
        · intro h0; norm_num at h0
        · intro h0; injection h0 with h1 h2; omega
      · subst h
        simp [listCmpN, Nat.lt_irrefl, ih bs]
      · rw [listCmpN, if_neg (Nat.lt_asymm h), if_pos h]
        constructor
        · intro h0; norm_num at h0
        · intro h0; injection h0 with h1 h2; omega

theorem listCmpN_trans_nonpos (a : List Nat) :
    ∀ b c : List Nat, listCmpN a b ≤ 0 → listCmpN b c ≤ 0 → listCmpN a c ≤ 0 := by
  induction a with
  | nil => intro b c _ _; cases c <;> simp [listCmpN]
  | cons x as ih =>
    intro b c h1 h2
    cases b with
    | nil => simp [listCmpN] at h1
    | cons y bs =>
      cases c with
      | nil => simp [listCmpN] at h2
      | cons z cs =>
        simp only [listCmpN] at h1 h2 ⊢
        split_ifs at h1 h2 ⊢ <;> first | omega | exact ih bs cs h1 h2

theorem lcCompare_antisym (s t : String) : lcCompare s t = -(lcCompare t s) := by
  simp only [lcCompare]
  have hp := listCmpN_antisym (s.data.map (fun c => (asciiLower c).toNat))
    (t.data.map (fun c => (asciiLower c).toNat))
  have ht := listCmpN_antisym (s.data.map caseWeight) (t.data.map caseWeight)
  by_cases h : listCmpN (s.data.map (fun c => (asciiLower c).toNat))
      (t.data.map (fun c => (asciiLower c).toNat)) = 0
  · have h' : listCmpN (t.data.map (fun c => (asciiLower c).toNat))
        (s.data.map (fun c => (asciiLower c).toNat)) = 0 := by omega
    rw [if_pos h, if_pos h']
    exact ht
  · have h' : ¬ listCmpN (t.data.map (fun c => (asciiLower c).toNat))
        (s.data.map (fun c => (asciiLower c).toNat)) = 0 := by omega
    rw [if_neg h, if_neg h']
    exact hp

theorem lcCompare_trans_nonpos (s t u : String) (h1 : lcCompare s t ≤ 0)
    (h2 : lcCompare t u ≤ 0) : lcCompare s u ≤ 0 := by
  simp only [lcCompare] at h1 h2 ⊢
  by_cases hab : listCmpN (s.data.map (fun c => (asciiLower c).toNat))
      (t.data.map (fun c => (asciiLower c).toNat)) = 0
  · have hAB := (listCmpN_eq_zero _ _).mp hab
    by_cases hbc : listCmpN (t.data.map (fun c => (asciiLower c).toNat))
        (u.data.map (fun c => (asciiLower c).toNat)) = 0
    · have hBC := (listCmpN_eq_zero _ _).mp hbc
      have hac : listCmpN (s.data.map (fun c => (asciiLower c).toNat))
          (u.data.map (fun c => (asciiLower c).toNat)) = 0 :=
        (listCmpN_eq_zero _ _).mpr (hAB.trans hBC)
      rw [if_pos hab] at h1
      rw [if_pos hbc] at h2
      rw [if_pos hac]
      exact listCmpN_trans_nonpos _ _ _ h1 h2
    · have hac : listCmpN (s.data.map (fun c => (asciiLower c).toNat))
          (u.data.map (fun c => (asciiLower c).toNat)) =
          listCmpN (t.data.map (fun c => (asciiLower c).toNat))
          (u.data.map (fun c => (asciiLower c).toNat)) := by rw [hAB]
      rw [if_neg hbc] at h2
      rw [if_neg (hac ▸ hbc), hac]
      exact h2
  · rw [if_neg hab] at h1
    by_cases hbc : listCmpN (t.data.map (fun c => (asciiLower c).toNat))
        (u.data.map (fun c => (asciiLower c).toNat)) = 0
    · have hBC := (listCmpN_eq_zero _ _).mp hbc
      have hac : listCmpN (s.data.map (fun c => (asciiLower c).toNat))
          (u.data.map (fun c => (asciiLower c).toNat)) =
          listCmpN (s.data.map (fun c => (asciiLower c).toNat))
          (t.data.map (fun c => (asciiLower c).toNat)) := by rw [hBC]
      rw [if_neg (hac ▸ hab), hac]
      exact h1
    · rw [if_neg hbc] at h2
      have hle := listCmpN_trans_nonpos _ _ _ h1 h2
      have hacne : ¬ listCmpN (s.data.map (fun c => (asciiLower c).toNat))
          (u.data.map (fun c => (asciiLower c).toNat)) = 0 := by
        intro h0
        have hAC := (listCmpN_eq_zero _ _).mp h0
        have hsym := listCmpN_antisym (t.data.map (fun c => (asciiLower c).toNat))
          (s.data.map (fun c => (asciiLower c).toNat))
        rw [← hAC] at h2 hbc
        omega
      rw [if_neg hacne]
      exact hle

/-! ## Lemmas about escaping and rendering -/

theorem strData_append (a b : String) : (a ++ b).data = a.data ++ b.data := by
  cases a; cases b; rfl

theorem replaceChar_append (c : Char) (rep : List Char) (l1 l2 : List Char) :
    replaceChar c rep (l1 ++ l2) = replaceChar c rep l1 ++ replaceChar c rep l2 := by
  induction l1 with
  | nil => rfl
  | cons x xs ih => simp [replaceChar, ih]

theorem escChain_eq (l : List Char) :
    replaceChar '"' "&quot;".data
      (replaceChar '>' "&gt;".data
        (replaceChar '<' "&lt;".data
          (replaceChar '&' "&amp;".data l))) = l.flatMap escChar := by
  induction l with
  | nil => rfl
  | cons x xs ih =>
    have hstep : replaceChar '&' "&amp;".data (x :: xs) =
        (if x = '&' then "&amp;".data else [x]) ++ replaceChar '&' "&amp;".data xs := rfl
    rw [hstep, replaceChar_append, replaceChar_append, replaceChar_append, ih,
      List.flatMap_cons]
    congr 1
    by_cases h1 : x = '&'
    · subst h1; rfl
    · by_cases h2 : x = '<'
      · subst h2; rfl
      · by_cases h3 : x = '>'
        · subst h3; rfl
        · by_cases h4 : x = '"'
          · subst h4; rfl
          · simp [replaceChar, escChar, h1, h2, h3, h4]

theorem escHtml_data (s : String) : (escHtml s).data = s.data.flatMap escChar := by
  show (escHtml s).data = _
  rw [escHtml]
  exact escChain_eq s.data

theorem escChar_no_specials (c : Char) :
    '<' ∉ escChar c ∧ '>' ∉ escChar c ∧ '"' ∉ escChar c := by
  unfold escChar
  split_ifs with h1 h2 h3 h4
  · exact ⟨by decide, by decide, by decide⟩
  · exact ⟨by decide, by decide, by decide⟩
  · exact ⟨by decide, by decide, by decide⟩
  · exact ⟨by decide, by decide, by decide⟩
  · refine ⟨?_, ?_, ?_⟩
    · intro hc; rw [List.mem_singleton] at hc; exact h2 hc.symm
    · intro hc; rw [List.mem_singleton] at hc; exact h3 hc.symm
    · intro hc; rw [List.mem_singleton] at hc; exact h4 hc.symm

theorem escHtml_no_specials (s : String) :
    '<' ∉ (escHtml s).data ∧ '>' ∉ (escHtml s).data ∧ '"' ∉ (escHtml s).data := by
  rw [escHtml_data]
  refine ⟨?_, ?_, ?_⟩ <;>
    · intro hc
      rw [List.mem_flatMap] at hc
      rcases hc with ⟨b, _, hb⟩
      first
        | exact (escChar_no_specials b).1 hb
        | exact (escChar_no_specials b).2.1 hb
        | exact (escChar_no_specials b).2.2 hb

theorem digitChar_ne_lt (n : Nat) : digitChar n ≠ '<' := by
  unfold digitChar
  split <;> decide

theorem lt_not_mem_natDigits (fuel : Nat) : ∀ n : Nat, '<' ∉ natDigits fuel n := by
  induction fuel with
  | zero => intro n; simp [natDigits]
  | succ fuel ih =>
    intro n
    by_cases h : n < 10
    · simp only [natDigits, if_pos h, List.mem_singleton]
      intro hc
      exact digitChar_ne_lt n hc.symm
    · simp only [natDigits, if_neg h, List.mem_append, List.mem_singleton]
      rintro (hc | hc)
      · exact ih (n / 10) hc
      · exact digitChar_ne_lt (n % 10) hc.symm

theorem lt_not_mem_natToString (n : Nat) : '<' ∉ (natToString n).data :=
  lt_not_mem_natDigits (n + 1) n

theorem lt_not_mem_monthAbbrev (m : Nat) : '<' ∉ (monthAbbrev m).data := by
  unfold monthAbbrev
  split <;> decide

theorem lt_not_mem_formatDate (s : String) : '<' ∉ (formatDate s).data := by
  unfold formatDate
  rcases hp : parseISODate s with _ | ⟨y, m, d⟩
  · decide
  · simp only [strData_append, List.mem_append]
    rintro ((((hc | hc) | hc) | hc) | hc)
    · exact lt_not_mem_monthAbbrev m hc
    · exact absurd hc (by decide)
    · exact lt_not_mem_natToString d hc
    · exact absurd hc (by decide)
    · exact lt_not_mem_natToString y hc

theorem count_lt_escHtml (s : String) : (escHtml s).data.count '<' = 0 :=
  List.count_eq_zero.mpr (escHtml_no_specials s).1

theorem count_lt_formatDate (s : String) : (formatDate s).data.count '<' = 0 :=
  List.count_eq_zero.mpr (lt_not_mem_formatDate s)

theorem count_lt_renderCard (f : FileRecord) : (renderCard f).data.count '<' = 10 := by
  simp only [renderCard, strData_append, List.count_append, count_lt_escHtml,
    count_lt_formatDate]
  decide

theorem count_lt_joinCards (entries : List FileRecord) :
    (joinWith "\n" (entries.map renderCard)).data.count '<' = 10 * entries.length := by
  induction entries with
  | nil => decide
  | cons f fs ih =>
    cases fs with
    | nil => simp [joinWith, count_lt_renderCard]
    | cons g gs =>
      simp only [List.map_cons, joinWith, strData_append, List.count_append,
        count_lt_renderCard]
      rw [show (g :: gs).map renderCard = (g :: gs).map renderCard from rfl] at ih
      simp only [List.map_cons] at ih
      rw [ih]
      simp [List.length_cons]
      ring

theorem count_lt_renderCategory (c : String) (entries : List FileRecord) :
    (renderCategory c entries).data.count '<' = 6 + 10 * entries.length := by
  have hbase : (renderCategory "" ([] : List FileRecord)).data.count '<' = 6 := by decide
  have hjoin0 : (joinWith "\n" ([] : List String)).data.count '<' = 0 := by decide
  have hgen : (renderCategory c entries).data.count '<'
      = (renderCategory "" ([] : List FileRecord)).data.count '<' + 10 * entries.length := by
    simp only [renderCategory, strData_append, List.count_append, count_lt_escHtml,
      count_lt_joinCards, List.map_nil, List.length_nil, hjoin0]
    omega
  rw [hgen, hbase]

/-! ## Lemmas about grouping -/

theorem insertRecord_keys_nodup (m : List (String × List FileRecord)) (f : FileRecord)
    (h : (m.map Prod.fst).Nodup) : ((insertRecord m f).map Prod.fst).Nodup := by
  unfold insertRecord
  split_ifs with hany
  · have hkeys : (m.map (fun p => if p.1 == f.category then (p.1, p.2 ++ [f]) else p)).map
        Prod.fst = m.map Prod.fst := by
      rw [List.map_map]
      apply List.map_congr_left
      intro p _
      by_cases hp : p.1 = f.category <;> simp [hp]
    rw [hkeys]
    exact h
  · rw [List.map_append, List.nodup_append]
    refine ⟨h, by simp, ?_⟩
    intro a ha hb
    simp only [List.map_cons, List.map_nil, List.mem_singleton] at hb
    subst hb
    rcases List.mem_map.mp ha with ⟨p, hp, hfst⟩
    exact hany (List.any_eq_true.mpr ⟨p, hp, beq_iff_eq.mpr hfst⟩)

theorem find?_append_of_none {p : α → Bool} {l1 : List α} (l2 : List α)
    (h : l1.find? p = none) : (l1 ++ l2).find? p = l2.find? p := by
  induction l1 with
  | nil => simp
  | cons x xs ih =>
    by_cases hx : p x = true
    · rw [List.find?_cons_of_pos _ hx] at h; cases h
    · rw [Bool.not_eq_true] at hx
      rw [List.find?_cons_of_neg _ (by simp [hx])] at h
      rw [List.cons_append, List.find?_cons_of_neg _ (by simp [hx])]
      exact ih h

theorem find?_append_of_some {p : α → Bool} {l1 : List α} (l2 : List α) {a : α}
    (h : l1.find? p = some a) : (l1 ++ l2).find? p = some a := by
  induction l1 with
  | nil => cases h
  | cons x xs ih =>
    by_cases hx : p x = true
    · rw [List.find?_cons_of_pos _ hx] at h
      rw [List.cons_append, List.find?_cons_of_pos _ hx]
      exact h
    · rw [Bool.not_eq_true] at hx
      rw [List.find?_cons_of_neg _ (by simp [hx])] at h
      rw [List.cons_append, List.find?_cons_of_neg _ (by simp [hx])]
      exact ih h

theorem find?_congr_pred {p q : α → Bool} (l : List α) (h : ∀ a, p a = q a) :
    l.find? p = l.find? q := by
  induction l with
  | nil => rfl
  | cons x xs ih =>
    by_cases hx : q x = true
    · rw [List.find?_cons_of_pos _ (by rw [h x]; exact hx), List.find?_cons_of_pos _ hx]
    · rw [Bool.not_eq_true] at hx
      rw [List.find?_cons_of_neg _ (by simp [h x, hx]), List.find?_cons_of_neg _ (by simp [hx])]
      exact ih

theorem bucketOf_insertRecord (m : List (String × List FileRecord)) (f : FileRecord)
    (c : String) :
    bucketOf (insertRecord m f) c =
      if c = f.category then bucketOf m c ++ [f] else bucketOf m c := by
  have hpred : ∀ p : String × List FileRecord,
      ((fun q : String × List FileRecord => q.1 == c) ∘
        (fun p => if p.1 == f.category then (p.1, p.2 ++ [f]) else p)) p
      = (p.1 == c) := by
    intro p
    by_cases hp : (p.1 == f.category) = true <;> simp [Function.comp, hp]
  unfold insertRecord bucketOf
  split_ifs with hany hc hc
  · -- existing key, c is the inserted category
    subst hc
    rw [List.find?_map, find?_congr_pred _ hpred]
    rcases hfind : m.find? (fun q => q.1 == f.category) with _ | q
    · exfalso
      rcases List.any_eq_true.mp hany with ⟨p, hp, hpp⟩
      have hsome : (m.find? (fun q => q.1 == f.category)).isSome :=
        List.find?_isSome.mpr ⟨p, hp, hpp⟩
      rw [hfind] at hsome
      cases hsome
    · have hq := List.find?_some hfind
      rw [hfind]
      simp [beq_iff_eq.mp hq]
  · -- existing key, some other category
    rw [List.find?_map, find?_congr_pred _ hpred]
    rcases hfind : m.find? (fun q => q.1 == c) with _ | q
    · rw [hfind]
      rfl
    · have hq := List.find?_some hfind
      have hqc : q.1 = c := beq_iff_eq.mp hq
      have hqf : (q.1 == f.category) = false := by
        rw [beq_eq_false_iff_ne, hqc]
        exact hc
      rw [hfind]
      have hqprop : ¬ q.1 = f.category := by rw [hqc]; exact hc
      simp [hqprop]
  · -- new key, c is the inserted category
    subst hc
    have hnone : m.find? (fun q => q.1 == f.category) = none := by
      rw [List.find?_eq_none]
      intro p hp hpp
      exact hany (List.any_eq_true.mpr ⟨p, hp, hpp⟩)
    rw [find?_append_of_none _ hnone, hnone]
    rw [List.find?_cons_of_pos _ (by simp)]
    simp
  · -- new key, some other category
    rcases hfind : m.find? (fun q => q.1 == c) with _ | q
    · rw [find?_append_of_none _ hfind]
      have hfc : (f.category == c) = false := by
        rw [beq_eq_false_iff_ne]
        exact fun he => hc he.symm
      rw [List.find?_cons_of_neg _ (by simp [hfc]), hfind]
      rfl
    · rw [find?_append_of_some _ hfind, hfind]

theorem insertRecord_flat (m : List (String × List FileRecord)) (f : FileRecord)
    (hnd : (m.map Prod.fst).Nodup) :
    ((insertRecord m f).flatMap Prod.snd).Perm (m.flatMap Prod.snd ++ [f]) := by
  unfold insertRecord
  split_ifs with hany
  · induction m with
    | nil => cases hany
    | cons p t ih =>
      rw [List.map_cons, List.nodup_cons] at hnd
      by_cases hp : (p.1 == f.category) = true
      · have hpc : p.1 = f.category := beq_iff_eq.mp hp
        have htail : ∀ q ∈ t, (q.1 == f.category) = false := by
          intro q hq
          rw [beq_eq_false_iff_ne]
          intro hqc
          exact hnd.1 (List.mem_map.mpr ⟨q, hq, hqc.trans hpc.symm⟩)
        have hmap : t.map (fun q => if q.1 == f.category then (q.1, q.2 ++ [f]) else q) = t := by
          conv_rhs => rw [← List.map_id t]
          apply List.map_congr_left
          intro q hq
          simp [htail q hq]
        simp only [List.map_cons, hmap, hp, if_true, List.flatMap_cons]
        have h1 : (p.2 ++ [f]) ++ t.flatMap Prod.snd
            = p.2 ++ ([f] ++ t.flatMap Prod.snd) := by rw [List.append_assoc]
        have h2 : (p.2 ++ t.flatMap Prod.snd) ++ [f]
            = p.2 ++ (t.flatMap Prod.snd ++ [f]) := by rw [List.append_assoc]
        rw [h1, h2]
        exact List.Perm.append_left p.2 List.perm_append_comm
      · have hp' : (p.1 == f.category) = false := by
          rw [Bool.not_eq_true] at hp; exact hp
        have hany_t : t.any (fun q => q.1 == f.category) = true := by
          rcases List.any_eq_true.mp hany with ⟨q, hq, hqq⟩
          rcases List.mem_cons.mp hq with hqp | hqt
          · rw [hqp] at hqq; rw [hqq] at hp'; cases hp'
          · exact List.any_eq_true.mpr ⟨q, hqt, hqq⟩
        simp only [List.map_cons, hp', if_false, List.flatMap_cons]
        rw [List.append_assoc]
        exact List.Perm.append_left p.2 (ih hnd.2 hany_t)
  · simp [List.flatMap_append]

theorem insertRecord_nonempty (m : List (String × List FileRecord)) (f : FileRecord)
    (h : ∀ p ∈ m, p.2 ≠ []) : ∀ p ∈ insertRecord m f, p.2 ≠ [] := by
  intro p hp
  unfold insertRecord at hp
  split_ifs at hp with hany
  · rcases List.mem_map.mp hp with ⟨q, hq, hpq⟩
    by_cases hqc : (q.1 == f.category) = true
    · rw [← hpq]; simp [hqc]
    · rw [Bool.not_eq_true] at hqc
      rw [← hpq]; simp [hqc]
      exact h q hq
  · rcases List.mem_append.mp hp with hp | hp
    · exact h p hp
    · rw [List.mem_singleton] at hp
      subst hp
      simp

theorem buildAux_keys_nodup (l : List FileRecord) :
    ∀ m, (m.map Prod.fst).Nodup → ((l.foldl insertRecord m).map Prod.fst).Nodup := by
  induction l with
  | nil => intro m h; simpa using h
  | cons f l ih =>
    intro m h
    simp only [List.foldl_cons]
    exact ih _ (insertRecord_keys_nodup m f h)

theorem buildAux_bucket (l : List FileRecord) :
    ∀ m c, bucketOf (l.foldl insertRecord m) c
      = bucketOf m c ++ l.filter (fun f => f.category == c) := by
  induction l with
  | nil => intro m c; simp
  | cons f l ih =>
    intro m c
    simp only [List.foldl_cons]
    rw [ih (insertRecord m f) c, bucketOf_insertRecord]
    by_cases hc : c = f.category
    · have hfc : (f.category == c) = true := beq_iff_eq.mpr hc.symm
      simp only [if_pos hc, List.filter_cons, hfc, if_true, List.append_assoc,
        List.singleton_append]
    · have hfc : (f.category == c) = false := by
        rw [beq_eq_false_iff_ne]
        exact fun he => hc he.symm
      simp only [if_neg hc, List.filter_cons, hfc]
      simp

theorem buildAux_flat (l : List FileRecord) :
    ∀ m, (m.map Prod.fst).Nodup →
      ((l.foldl insertRecord m).flatMap Prod.snd).Perm (m.flatMap Prod.snd ++ l) := by
  induction l with
  | nil => intro m _; simp
  | cons f l ih =>
    intro m hnd
    simp only [List.foldl_cons]
    refine (ih (insertRecord m f) (insertRecord_keys_nodup m f hnd)).trans ?_
    refine ((insertRecord_flat m f hnd).append_right l).trans ?_
    rw [List.append_assoc]
    exact List.Perm.refl _

theorem buildAux_nonempty (l : List FileRecord) :
    ∀ m, (∀ p ∈ m, p.2 ≠ []) → ∀ p ∈ l.foldl insertRecord m, p.2 ≠ [] := by
  induction l with
  | nil => intro m h; simpa using h
  | cons f l ih =>
    intro m h
    simp only [List.foldl_cons]
    exact ih _ (insertRecord_nonempty m f h)

theorem buildGroups_keys_nodup (l : List FileRecord) :
    ((buildGroups l).map Prod.fst).Nodup :=
  buildAux_keys_nodup l [] (by simp)

theorem buildGroups_bucket (l : List FileRecord) (c : String) :
    bucketOf (buildGroups l) c = l.filter (fun f => f.category == c) := by
  have h := buildAux_bucket l [] c
  simpa [bucketOf] using h

theorem buildGroups_flat (l : List FileRecord) :
    ((buildGroups l).flatMap Prod.snd).Perm l := by
  simpa using buildAux_flat l [] (by simp)

theorem buildGroups_nonempty (l : List FileRecord) :
    ∀ p ∈ buildGroups l, p.2 ≠ [] :=
  buildAux_nonempty l [] (by simp)

theorem find?_eq_self_of_nodup (m : List (String × List FileRecord))
    (p : String × List FileRecord) (hnd : (m.map Prod.fst).Nodup) (hp : p ∈ m) :
    m.find? (fun q => q.1 == p.1) = some p := by
  induction m with
  | nil => cases hp
  | cons q t ih =>
    rw [List.map_cons, List.nodup_cons] at hnd
    rcases List.mem_cons.mp hp with hq | hpt
    · subst hq
      exact List.find?_cons_of_pos _ (by simp)
    · have hne : (q.1 == p.1) = false := by
        rw [beq_eq_false_iff_ne]
        intro he
        exact hnd.1 (List.mem_map.mpr ⟨p, hpt, he.symm⟩)
      rw [List.find?_cons_of_neg _ (by simp [hne])]
      exact ih hnd.2 hpt

theorem mem_buildGroups_eq (l : List FileRecord) (p : String × List FileRecord)
    (hp : p ∈ buildGroups l) : p.2 = l.filter (fun f => f.category == p.1) := by
  have h1 := find?_eq_self_of_nodup (buildGroups l) p (buildGroups_keys_nodup l) hp
  have h2 := buildGroups_bucket l p.1
  rw [bucketOf, h1] at h2
  simpa using h2

theorem flatMap_perm_of_perm (f : α → List β) {l1 l2 : List α} (h : l1.Perm l2) :
    (l1.flatMap f).Perm (l2.flatMap f) := by
  induction h with
  | nil => simp
  | cons x h ih => simpa [List.flatMap_cons] using ih.append_left (f x)
  | swap x y l =>
    simp only [List.flatMap_cons]
    rw [← List.append_assoc, ← List.append_assoc]
    exact List.perm_append_comm.append_right _
  | trans h1 h2 ih1 ih2 => exact ih1.trans ih2

theorem flatMap_perm_congr {f g : α → List β} (l : List α)
    (h : ∀ a ∈ l, (f a).Perm (g a)) : (l.flatMap f).Perm (l.flatMap g) := by
  induction l with
  | nil => simp
  | cons x t ih =>
    simp only [List.flatMap_cons]
    exact (h x (List.mem_cons_self x t)).append
      (ih (fun a ha => h a (List.mem_cons_of_mem x ha)))

theorem mem_groupBy (l : List FileRecord) (p : String × List FileRecord)
    (hp : p ∈ groupByCategory l) :
    p.1 ∈ (buildGroups l).map Prod.fst ∧
    p.2 = jsSort gtUpdated (l.filter (fun f => f.category == p.1)) ∧ p.2 ≠ [] := by
  unfold groupByCategory at hp
  have hp2 := (jsSort_perm gtCategory _).mem_iff.mp hp
  rcases List.mem_map.mp hp2 with ⟨q, hq, hpq⟩
  subst hpq
  refine ⟨List.mem_map.mpr ⟨q, hq, rfl⟩, ?_, ?_⟩
  · show jsSort gtUpdated q.2 = jsSort gtUpdated (l.filter (fun f => f.category == q.1))
    rw [mem_buildGroups_eq l q hq]
  · show jsSort gtUpdated q.2 ≠ []
    intro h0
    apply buildGroups_nonempty l q hq
    have hlen := (jsSort_perm gtUpdated q.2).length_eq
    rw [h0] at hlen
    exact List.length_eq_zero.mp hlen.symm

theorem groupBy_keys_nodup (l : List FileRecord) :
    ((groupByCategory l).map Prod.fst).Nodup := by
  unfold groupByCategory
  have hperm := (jsSort_perm gtCategory
    ((buildGroups l).map (fun p => (p.1, jsSort gtUpdated p.2)))).map Prod.fst
  refine hperm.nodup_iff.mpr ?_
  rw [List.map_map]
  have hcomp : (Prod.fst ∘ fun p : String × List FileRecord =>
      (p.1, jsSort gtUpdated p.2)) = Prod.fst := by
    funext p
    rfl
  rw [hcomp]
  exact buildGroups_keys_nodup l

theorem groupBy_flat_perm (l : List FileRecord) :
    ((groupByCategory l).flatMap Prod.snd).Perm l := by
  unfold groupByCategory
  refine (flatMap_perm_of_perm Prod.snd (jsSort_perm gtCategory _)).trans ?_
  rw [List.flatMap_map]
  refine (flatMap_perm_congr _ (fun q _ => ?_)).trans (buildGroups_flat l)
  show (jsSort gtUpdated q.2).Perm q.2
  exact jsSort_perm gtUpdated q.2

theorem groupBy_keys_sorted (l : List FileRecord) :
    (groupByCategory l).Pairwise (fun p q => lcCompare p.1 q.1 ≤ 0) := by
  unfold groupByCategory
  refine List.Pairwise.imp ?_
    (jsSort_pairwise (fun _ => True) ?_ ?_ _ (fun _ _ => trivial))
  · intro a b hab
    unfold gtCategory at hab
    rw [decide_eq_false_iff_not] at hab
    omega
  · intro a b _ _ hab
    unfold gtCategory at hab ⊢
    rw [decide_eq_true_eq] at hab
    rw [decide_eq_false_iff_not]
    have hsym := lcCompare_antisym a.1 b.1
    omega
  · intro a b c _ _ _ h1 h2
    unfold gtCategory at h1 h2 ⊢
    rw [decide_eq_false_iff_not] at h1 h2
    rw [decide_eq_false_iff_not]
    intro hpos
    have ht := lcCompare_trans_nonpos a.1 b.1 c.1 (by omega) (by omega)
    omega

/-! ## Lemmas about the date comparator -/

theorem gtUpdated_eq (a b : FileRecord) (ka kb : Int) (ha : dateValue a.updated = some ka)
    (hb : dateValue b.updated = some kb) : gtUpdated a b = decide (0 < kb - ka) := by
  unfold gtUpdated cmpUpdated
  rw [ha, hb]

theorem gtUpdated_asym (a b : FileRecord) (ha : (dateValue a.updated).isSome = true)
    (hb : (dateValue b.updated).isSome = true) (h : gtUpdated a b = true) :
    gtUpdated b a = false := by
  rcases Option.isSome_iff_exists.mp ha with ⟨ka, hka⟩
  rcases Option.isSome_iff_exists.mp hb with ⟨kb, hkb⟩
  rw [gtUpdated_eq a b ka kb hka hkb, decide_eq_true_eq] at h
  rw [gtUpdated_eq b a kb ka hkb hka, decide_eq_false_iff_not]
  omega

theorem gtUpdated_trans (a b c : FileRecord) (ha : (dateValue a.updated).isSome = true)
    (hb : (dateValue b.updated).isSome = true) (hc : (dateValue c.updated).isSome = true)
    (h1 : gtUpdated a b = false) (h2 : gtUpdated b c = false) : gtUpdated a c = false := by
  rcases Option.isSome_iff_exists.mp ha with ⟨ka, hka⟩
  rcases Option.isSome_iff_exists.mp hb with ⟨kb, hkb⟩
  rcases Option.isSome_iff_exists.mp hc with ⟨kc, hkc⟩
  rw [gtUpdated_eq a b ka kb hka hkb, decide_eq_false_iff_not] at h1
  rw [gtUpdated_eq b c kb kc hkb hkc, decide_eq_false_iff_not] at h2
  rw [gtUpdated_eq a c ka kc hka hkc, decide_eq_false_iff_not]
  omega

theorem gtUpdated_of_eq_key (a b : FileRecord)
    (hv : dateValue a.updated = dateValue b.updated) : gtUpdated a b = false := by
  rcases hb : dateValue b.updated with _ | k
  · simp [gtUpdated, cmpUpdated, hb]
  · have ha : dateValue a.updated = some k := by rw [hv, hb]
    unfold gtUpdated cmpUpdated
    rw [ha, hb]
    simp

/-! ## Lemmas about the debounced controller -/

theorem chain'_head_le (e2 : InputEvent) (rest : List InputEvent)
    (hch : List.Chain' (fun a b => a.t < b.t) (e2 :: rest)) :
    ∀ x ∈ e2 :: rest, e2.t ≤ x.t := by
  induction rest generalizing e2 with
  | nil =>
    intro x hx
    rw [List.mem_singleton] at hx
    rw [hx]
  | cons e3 rest ih =>
    rw [List.chain'_cons] at hch
    intro x hx
    rcases List.mem_cons.mp hx with hx2 | hx3
    · rw [hx2]
    · exact le_trans (le_of_lt hch.1) (ih e3 hch.2 x hx3)

theorem debounceRenders_mem (evs : List InputEvent) :
    ∀ r ∈ debounceRenders evs, ∃ e ∈ evs, r = (e.t + debounceMs, e.value) := by
  induction evs with
  | nil => intro r hr; cases hr
  | cons e rest ih =>
    cases rest with
    | nil =>
      intro r hr
      rw [show debounceRenders [e] = [(e.t + debounceMs, e.value)] from rfl,
        List.mem_singleton] at hr
      exact ⟨e, List.mem_cons_self e [], hr⟩
    | cons e2 rest' =>
      intro r hr
      rw [show debounceRenders (e :: e2 :: rest')
          = if e.t + debounceMs ≤ e2.t then
              (e.t + debounceMs, e.value) :: debounceRenders (e2 :: rest')
            else debounceRenders (e2 :: rest') from rfl] at hr
      split_ifs at hr with hf
      · rcases List.mem_cons.mp hr with hr1 | hr2
        · exact ⟨e, List.mem_cons_self e _, hr1⟩
        · rcases ih r hr2 with ⟨e', he', hre⟩
          exact ⟨e', List.mem_cons_of_mem e he', hre⟩
      · rcases ih r hr with ⟨e', he', hre⟩
        exact ⟨e', List.mem_cons_of_mem e he', hre⟩

theorem debounceRenders_spacing (evs : List InputEvent)
    (hch : List.Chain' (fun a b => a.t < b.t) evs) :
    List.Pairwise (fun r1 r2 : Nat × String => r1.1 + debounceMs ≤ r2.1)
      (debounceRenders evs) := by
  induction evs with
  | nil => exact List.Pairwise.nil
  | cons e rest ih =>
    cases rest with
    | nil => simp [debounceRenders]
    | cons e2 rest' =>
      rw [List.chain'_cons] at hch
      rw [show debounceRenders (e :: e2 :: rest')
          = if e.t + debounceMs ≤ e2.t then
              (e.t + debounceMs, e.value) :: debounceRenders (e2 :: rest')
            else debounceRenders (e2 :: rest') from rfl]
      split_ifs with hf
      · rw [List.pairwise_cons]
        refine ⟨?_, ih hch.2⟩
        intro r hr
        rcases debounceRenders_mem (e2 :: rest') r hr with ⟨e', he', hre⟩
        have h2 := chain'_head_le e2 rest' hch.2 e' he'
        rw [hre]
        simp only []
        omega
      · exact ih hch.2

theorem debounceRenders_latest (evs : List InputEvent)
    (hch : List.Chain' (fun a b => a.t < b.t) evs) :
    ∀ r ∈ debounceRenders evs, ∃ e ∈ evs, r.1 = e.t + debounceMs ∧ r.2 = e.value ∧
      ∀ e2 ∈ evs, e2.t < r.1 → e2.t ≤ e.t := by
  induction evs with
  | nil => intro r hr; cases hr
  | cons e rest ih =>
    cases rest with
    | nil =>
      intro r hr
      rw [show debounceRenders [e] = [(e.t + debounceMs, e.value)] from rfl,
        List.mem_singleton] at hr
      refine ⟨e, List.mem_cons_self e [], by rw [hr], by rw [hr], ?_⟩
      intro e2 he2 _
      rw [List.mem_singleton] at he2
      rw [he2]
    | cons e2 rest' =>
      rw [List.chain'_cons] at hch
      intro r hr
      rw [show debounceRenders (e :: e2 :: rest')
          = if e.t + debounceMs ≤ e2.t then
              (e.t + debounceMs, e.value) :: debounceRenders (e2 :: rest')
            else debounceRenders (e2 :: rest') from rfl] at hr
      split_ifs at hr with hf
      · rcases List.mem_cons.mp hr with hr1 | hr2
        · refine ⟨e, List.mem_cons_self e _, by rw [hr1], by rw [hr1], ?_⟩
          intro e' he' hlt
          rcases List.mem_cons.mp he' with he | he
          · rw [he]
          · exfalso
            have hge := chain'_head_le e2 rest' hch.2 e' he
            rw [hr1] at hlt
            simp only [] at hlt
            omega
        · rcases ih hch.2 r hr2 with ⟨e', he', h1, h2, h3⟩
          refine ⟨e', List.mem_cons_of_mem e he', h1, h2, ?_⟩
          intro e3 he3 hlt
          rcases List.mem_cons.mp he3 with he | he
          · have := chain'_head_le e2 rest' hch.2 e' he'
            rw [he]
            omega
          · exact h3 e3 he hlt
      · rcases ih hch.2 r hr with ⟨e', he', h1, h2, h3⟩
        refine ⟨e', List.mem_cons_of_mem e he', h1, h2, ?_⟩
        intro e3 he3 hlt
        rcases List.mem_cons.mp he3 with he | he
        · have := chain'_head_le e2 rest' hch.2 e' he'
          rw [he]
          omega
        · exact h3 e3 he hlt

/-! ## Remaining helper lemmas -/

theorem isSubChars_nil (hay : List Char) : isSubChars [] hay = true := by
  cases hay <;> simp [isSubChars, headMatch]

theorem filter_flatMap (l : List α) (f : α → List β) (p : β → Bool) :
    (l.flatMap f).filter p = l.flatMap (fun a => (f a).filter p) := by
  induction l with
  | nil => rfl
  | cons x t ih => simp [List.flatMap_cons, List.filter_append, ih]

theorem flatMap_congr_mem {f g : α → List β} (l : List α) (h : ∀ a ∈ l, f a = g a) :
    l.flatMap f = l.flatMap g := by
  induction l with
  | nil => rfl
  | cons x t ih =>
    simp only [List.flatMap_cons]
    rw [h x (List.mem_cons_self x t), ih (fun a ha => h a (List.mem_cons_of_mem x ha))]

theorem flatMap_if_single (G : List (String × List FileRecord)) (c : String)
    (X : List FileRecord) (hnd : (G.map Prod.fst).Nodup) :
    G.flatMap (fun p => if p.1 = c then X else []) =
      if c ∈ G.map Prod.fst then X else [] := by
  induction G with
  | nil => simp
  | cons q t ih =>
    rw [List.map_cons, List.nodup_cons] at hnd
    simp only [List.flatMap_cons, List.map_cons]
    by_cases hq : q.1 = c
    · rw [if_pos hq]
      have hnotc : c ∉ t.map Prod.fst := by rw [← hq]; exact hnd.1
      rw [ih hnd.2, if_neg hnotc, List.append_nil, if_pos]
      exact List.mem_cons.mpr (Or.inl hq.symm)
    · rw [if_neg hq, List.nil_append, ih hnd.2]
      have hcq : ¬ c = q.1 := fun h => hq h.symm
      by_cases hc : c ∈ t.map Prod.fst
      · rw [if_pos hc, if_pos (List.mem_cons.mpr (Or.inr hc))]
      · rw [if_neg hc, if_neg]
        intro hmem
        rcases List.mem_cons.mp hmem with h | h
        · exact hcq h
        · exact hc h

/-! ## The claims -/

/-- C1: every occurrence of `&`, `<`, `>`, `"` in the user-supplied fields is
escaped before interpolation into the markup of `renderCard`/`renderCategory`:
`escHtml` equals the per-character escaping map, its output contains no raw
`<`, `>` or `"`, and consequently the number of `<` characters in a rendered
card (10) and category section (6 plus 10 per card) is a constant of the
template, independent of the record fields — in particular a title containing
`"<script>"` contributes no unescaped `<`. -/
theorem c1_escaping (s : String) (f : FileRecord) (c : String)
    (entries : List FileRecord) :
    (escHtml s).data = s.data.flatMap escChar ∧
    ('<' ∉ (escHtml s).data ∧ '>' ∉ (escHtml s).data ∧ '"' ∉ (escHtml s).data) ∧
    (renderCard f).data.count '<' = 10 ∧
    (renderCategory c entries).data.count '<' = 6 + 10 * entries.length :=
  ⟨escHtml_data s, escHtml_no_specials s, count_lt_renderCard f,
   count_lt_renderCategory c entries⟩

/-- Witness for C1 at a title containing `"<script>"` and the shipped record. -/
theorem c1_escaping_witness :
    (escHtml "<script>").data = "&lt;script&gt;".data ∧
    (renderCard sampleRecord).data.count '<' = 10 := by
  constructor
  · rw [(c1_escaping "<script>" sampleRecord "" []).1]
    decide
  · exact (c1_escaping "" sampleRecord "" []).2.2.1

/-- C2 (amended): the grouping lists its categories in ascending order of the
locale comparison, for every record list; and for every record list whose
`updated` fields all parse as dates, the records within each category appear
in non-increasing order of their parsed dates.  (Unrestricted, the
within-category ordering fails when an unparseable date makes the comparator
return `NaN`; see the counterexample.) -/
theorem c2_group_order (l : List FileRecord) :
    (groupByCategory l).Pairwise (fun p q => lcCompare p.1 q.1 ≤ 0) ∧
    ((∀ f ∈ l, (dateValue f.updated).isSome = true) →
      ∀ p ∈ groupByCategory l, p.2.Pairwise (fun a b => ∀ ka kb,
        dateValue a.updated = some ka → dateValue b.updated = some kb → kb ≤ ka)) := by
  refine ⟨groupBy_keys_sorted l, ?_⟩
  intro hval p hp
  have hb := (mem_groupBy l p hp).2.1
  rw [hb]
  have hvalfl : ∀ f ∈ l.filter (fun f => f.category == p.1),
      (dateValue f.updated).isSome = true :=
    fun f hf => hval f (List.mem_of_mem_filter hf)
  have hsorted := jsSort_pairwise (fun f => (dateValue f.updated).isSome = true)
    (fun a b ha hb2 h => gtUpdated_asym a b ha hb2 h)
    (fun a b c ha hb2 hc h1 h2 => gtUpdated_trans a b c ha hb2 hc h1 h2)
    (l.filter (fun f => f.category == p.1)) hvalfl
  refine List.Pairwise.imp ?_ hsorted
  intro a b hab
  intro ka kb hka hkb
  rw [gtUpdated_eq a b ka kb hka hkb, decide_eq_false_iff_not] at hab
  omega

/-- Witness for C2 at the specification's three-record scenario. -/
theorem c2_group_order_witness :
    (groupByCategory [recX, recY, recZ]).Pairwise (fun p q => lcCompare p.1 q.1 ≤ 0) ∧
    (∀ p ∈ groupByCategory [recX, recY, recZ], p.2.Pairwise (fun a b => ∀ ka kb,
      dateValue a.updated = some ka → dateValue b.updated = some kb → kb ≤ ka)) :=
  ⟨(c2_group_order [recX, recY, recZ]).1,
   (c2_group_order [recX, recY, recZ]).2 (by decide)⟩

/-- Counterexample for C2 as frozen: in the list `[rec2020, recBad, rec2025]`
(one category, a 2020 record, an unparseable date, a 2025 record) the bucket
keeps its input order, so the two parseable records appear in increasing, not
non-increasing, date order. -/
theorem c2_counterexample :
    ¬ ∀ p ∈ groupByCategory [rec2020, recBad, rec2025],
        p.2.Pairwise (fun a b => ∀ ka kb, dateValue a.updated = some ka →
          dateValue b.updated = some kb → kb ≤ ka) := by
  intro h
  have hp : ("A", [rec2020, recBad, rec2025])
      ∈ groupByCategory [rec2020, recBad, rec2025] := by decide
  have hpw : ([rec2020, recBad, rec2025] : List FileRecord).Pairwise
      (fun a b => ∀ ka kb, dateValue a.updated = some ka →
        dateValue b.updated = some kb → kb ≤ ka) := h _ hp
  have h1 := (List.pairwise_cons.mp hpw).1 rec2025 (by decide)
  have h2 := h1 1577836800000 1735689600000 (by decide) (by decide)
  omega

/-- C3: every record returned by `filterFiles` matches the case-folded query
in at least one of title, description, category; the output is a sublist of
the input (order preserved) and no longer than it. -/
theorem c3_filter (files : List FileRecord) (q : String) :
    (∀ f ∈ filterFiles files q,
      (isSubChars (jsToLower q).data (jsToLower f.title).data ||
       isSubChars (jsToLower q).data (jsToLower f.description).data ||
       isSubChars (jsToLower q).data (jsToLower f.category).data) = true) ∧
    (filterFiles files q).Sublist files ∧
    (filterFiles files q).length ≤ files.length := by
  refine ⟨?_, ?_, ?_⟩
  · intro f hf
    unfold filterFiles at hf
    split_ifs at hf with hq
    · subst hq
      simp [jsToLower, isSubChars_nil]
    · have hm : matchesQuery (jsToLower q) f = true := List.of_mem_filter hf
      simpa [matchesQuery] using hm
  · unfold filterFiles
    split_ifs with hq
    · exact List.Sublist.refl files
    · exact List.filter_sublist files
  · unfold filterFiles
    split_ifs with hq
    · exact le_refl _
    · exact (List.filter_sublist files).length_le

set_option maxRecDepth 10000 in
/-- Witness for C3 at the specification's scenario: the query `"python"`
matches the shipped record through its description. -/
theorem c3_filter_witness :
    (isSubChars (jsToLower "python").data (jsToLower sampleRecord.title).data ||
     isSubChars (jsToLower "python").data (jsToLower sampleRecord.description).data ||
     isSubChars (jsToLower "python").data (jsToLower sampleRecord.category).data) = true ∧
    (filterFiles [sampleRecord] "python").Sublist [sampleRecord] := by
  constructor
  · exact (c3_filter [sampleRecord] "python").1 sampleRecord (by decide)
  · exact (c3_filter [sampleRecord] "python").2.1

/-- C4 (amended): `filterFiles` with the empty query is the identity; the
whitespace-only query is the identity only through the trim the search
controller applies before calling `filterFiles` (`"   ".trim() = ""`).
`filterFiles` itself treats `"   "` as a literal three-space query. -/
theorem c4_blank_query (files : List FileRecord) :
    filterFiles files "" = files ∧ jsTrim "   " = "" ∧
    filterFiles files (jsTrim "   ") = files := by
  have ht : jsTrim "   " = "" := by decide
  refine ⟨by simp [filterFiles], ht, ?_⟩
  rw [ht]
  simp [filterFiles]

/-- Counterexample for C4 as frozen: `filterFiles` applied directly to the
untrimmed query `"   "` filters by the literal three-space substring, which
no field of `recX` contains, so the input list is not returned unchanged. -/
theorem c4_counterexample :
    filterFiles [recX] "   " = [] ∧ filterFiles [recX] "   " ≠ [recX] :=
  ⟨by decide, by decide⟩

/-- C5 (amended): an `updated` value that does not parse is total for the
whole pipeline — `dateValue` yields the `NaN` stand-in `none` and the display
formatter yields `"Invalid Date"` (not the raw text), while in the grouping
the malformed record keeps its position relative to its neighbours (it is
not assigned an oldest-first position): concretely the bucket of
`[rec2020, recBad, rec2025]` stays in input order. -/
theorem c5_invalid_date (s : String) (hs : parseISODate s = none) :
    formatDate s = "Invalid Date" ∧ dateValue s = none ∧
    groupByCategory [rec2020, recBad, rec2025]
      = [("A", [rec2020, recBad, rec2025])] := by
  refine ⟨?_, ?_, by decide⟩
  · unfold formatDate
    rw [hs]
  · unfold dateValue
    rw [hs]
    rfl

/-- Witness for C5 at the concrete unparseable string `"not-a-date"`. -/
theorem c5_invalid_date_witness :
    formatDate "not-a-date" = "Invalid Date" ∧ dateValue "not-a-date" = none ∧
    groupByCategory [rec2020, recBad, rec2025]
      = [("A", [rec2020, recBad, rec2025])] :=
  c5_invalid_date "not-a-date" (by decide)

/-- Counterexample for C5 as frozen: the formatter does not fall back to the
raw text (it prints `"Invalid Date"`), and the malformed record is not sorted
as oldest — it stays in the middle of its bucket. -/
theorem c5_counterexample :
    ¬ formatDate recBad.updated = recBad.updated ∧
    formatDate recBad.updated = "Invalid Date" ∧
    groupByCategory [rec2020, recBad, rec2025]
      = [("A", [rec2020, recBad, rec2025])] :=
  ⟨by decide, by decide, by decide⟩

/-- C6: the within-category sort is stable on equal `updated` sort keys — for
every record list, category and key value, the records of that category with
that exact sort key appear in the grouping's flattened output in their
original relative input order. -/
theorem c6_stable_ties (l : List FileRecord) (c : String) (v : Option Int) :
    ((groupByCategory l).flatMap Prod.snd).filter
        (fun f => f.category == c && dateValue f.updated == v)
      = l.filter (fun f => f.category == c && dateValue f.updated == v) := by
  have hbucket : ∀ p ∈ groupByCategory l,
      p.2.filter (fun f => f.category == c && dateValue f.updated == v)
        = if p.1 = c
            then l.filter (fun f => f.category == c && dateValue f.updated == v)
            else [] := by
    intro p hp
    have hb := (mem_groupBy l p hp).2.1
    rw [hb]
    have hstable : (jsSort gtUpdated (l.filter (fun f => f.category == p.1))).filter
          (fun f => f.category == c && dateValue f.updated == v)
        = (l.filter (fun f => f.category == p.1)).filter
            (fun f => f.category == c && dateValue f.updated == v) := by
      apply jsSort_filter
      intro a b hpa hpb
      rw [Bool.and_eq_true] at hpa hpb
      exact gtUpdated_of_eq_key a b
        ((beq_iff_eq.mp hpa.2).trans (beq_iff_eq.mp hpb.2).symm)
    rw [hstable, List.filter_filter]
    by_cases hpc : p.1 = c
    · rw [if_pos hpc]
      apply List.filter_congr
      intro a _
      by_cases hPa : (a.category == c && dateValue a.updated == v) = true
      · rw [hPa, Bool.true_and]
        rw [Bool.and_eq_true] at hPa
        rw [beq_iff_eq] at hPa ⊢
        rw [hPa.1, hpc]
      · rw [Bool.not_eq_true] at hPa
        rw [hPa, Bool.false_and]
    · rw [if_neg hpc]
      rw [List.filter_eq_nil_iff]
      intro a _ hcond
      rw [Bool.and_eq_true] at hcond
      rcases hcond with ⟨hP, hcat⟩
      rw [Bool.and_eq_true] at hP
      exact hpc ((beq_iff_eq.mp hcat).symm.trans (beq_iff_eq.mp hP.1))
  rw [filter_flatMap]
  rw [flatMap_congr_mem _ hbucket,
    flatMap_if_single _ _ _ (groupBy_keys_nodup l)]
  by_cases hc : c ∈ (groupByCategory l).map Prod.fst
  · rw [if_pos hc]
  · rw [if_neg hc]
    symm
    rw [List.filter_eq_nil_iff]
    intro f hf hPf
    apply hc
    have hmem : f ∈ (groupByCategory l).flatMap Prod.snd :=
      (groupBy_flat_perm l).mem_iff.mpr hf
    rcases List.mem_flatMap.mp hmem with ⟨p, hp, hfp⟩
    have hb := (mem_groupBy l p hp).2.1
    rw [hb] at hfp
    have hf2 := (jsSort_perm gtUpdated _).mem_iff.mp hfp
    have hcatb := (List.mem_filter.mp hf2).2
    have hcat := beq_iff_eq.mp hcatb
    rw [Bool.and_eq_true] at hPf
    have hfc := beq_iff_eq.mp hPf.1
    rw [List.mem_map]
    exact ⟨p, hp, by rw [← hcat, hfc]⟩

/-- C7: the grouping partitions its input by category — the category keys are
pairwise distinct, every record of a bucket carries that bucket's category,
and the concatenation of all buckets is a permutation of the input list. -/
theorem c7_partition (l : List FileRecord) :
    ((groupByCategory l).map Prod.fst).Nodup ∧
    (∀ p ∈ groupByCategory l, ∀ f ∈ p.2, f.category = p.1) ∧
    ((groupByCategory l).flatMap Prod.snd).Perm l := by
  refine ⟨groupBy_keys_nodup l, ?_, groupBy_flat_perm l⟩
  intro p hp f hf
  have hb := (mem_groupBy l p hp).2.1
  rw [hb] at hf
  have hf2 := (jsSort_perm gtUpdated _).mem_iff.mp hf
  have hcatb := (List.mem_filter.mp hf2).2
  exact beq_iff_eq.mp hcatb

/-- Witness for C7 at the specification's three-record scenario. -/
theorem c7_partition_witness :
    ((groupByCategory [recX, recY, recZ]).flatMap Prod.snd).Perm [recX, recY, recZ] ∧
    recY.category = "A" := by
  constructor
  · exact (c7_partition [recX, recY, recZ]).2.2
  · exact (c7_partition [recX, recY, recZ]).2.1 ("A", [recY, recX]) (by decide)
      recY (by decide)

/-- C8: rendering an input whose grouping is empty replaces the host
container's content with exactly the empty-state placeholder, independently
of any previous content, and schedules no animation step. -/
theorem c8_empty_render (prevContent : String) (l : List FileRecord)
    (h : groupByCategory l = []) :
    renderAll prevContent l = ⟨emptyStateHtml, false⟩ := by
  simp [renderAll, h]

/-- Witness for C8: a previous render's content is fully replaced. -/
theorem c8_empty_render_witness :
    renderAll "stale content from a previous render" [] = ⟨emptyStateHtml, false⟩ :=
  c8_empty_render "stale content from a previous render" [] (by decide)

/-- C9: with strictly increasing event times, consecutive debounce renders
are at least one debounce window apart (each new event cancels the pending
timer), and every render carries the value of the last event before its fire
time (never a stale value); the concrete scenario of events at 0, 50, 100 ms
yields exactly one render at 250 ms with the value from 100 ms. -/
theorem c9_debounce :
    (∀ evs : List InputEvent, List.Chain' (fun a b => a.t < b.t) evs →
      List.Pairwise (fun r1 r2 : Nat × String => r1.1 + debounceMs ≤ r2.1)
        (debounceRenders evs) ∧
      (∀ r ∈ debounceRenders evs, ∃ e ∈ evs, r.1 = e.t + debounceMs ∧
        r.2 = e.value ∧ ∀ e2 ∈ evs, e2.t < r.1 → e2.t ≤ e.t)) ∧
    debounceRenders [⟨0, "a"⟩, ⟨50, "ab"⟩, ⟨100, "abc"⟩] = [(250, "abc")] := by
  constructor
  · intro evs hch
    exact ⟨debounceRenders_spacing evs hch, debounceRenders_latest evs hch⟩
  · decide

/-- Witness for C9 at the specification's timing scenario. -/
theorem c9_debounce_witness :
    List.Pairwise (fun r1 r2 : Nat × String => r1.1 + debounceMs ≤ r2.1)
      (debounceRenders [⟨0, "a"⟩, ⟨50, "ab"⟩, ⟨100, "abc"⟩]) ∧
    debounceRenders [⟨0, "a"⟩, ⟨50, "ab"⟩, ⟨100, "abc"⟩] = [(250, "abc")] :=
  ⟨(c9_debounce.1 [⟨0, "a"⟩, ⟨50, "ab"⟩, ⟨100, "abc"⟩]
      (by
        rw [List.chain'_cons, List.chain'_cons]
        exact ⟨by decide, by decide, List.chain'_singleton _⟩)).1,
   c9_debounce.2⟩

/-- C10: every bucket of the grouping is non-empty, so the renderer never
emits a category section with zero cards — each section's markup contains
exactly 6 + 10·(number of cards) `<` characters with at least one card. -/
theorem c10_nonempty_buckets (l : List FileRecord) (p : String × List FileRecord)
    (hp : p ∈ groupByCategory l) :
    p.2 ≠ [] ∧ 1 ≤ p.2.length ∧
    (renderCategory p.1 p.2).data.count '<' = 6 + 10 * p.2.length := by
  have hne := (mem_groupBy l p hp).2.2
  refine ⟨hne, ?_, count_lt_renderCategory p.1 p.2⟩
  have hlen : p.2.length ≠ 0 := fun h0 => hne (List.length_eq_zero.mp h0)
  omega

/-- Witness for C10 at a one-record list. -/
theorem c10_nonempty_buckets_witness :
    ([recX] : List FileRecord) ≠ [] ∧ 1 ≤ ([recX] : List FileRecord).length ∧
    (renderCategory "A" [recX]).data.count '<' = 6 + 10 * ([recX] : List FileRecord).length :=
  c10_nonempty_buckets [recX] ("A", [recX]) (by decide)
